import Mathlib

namespace Sus

/-!
Verification development for the materials-analysis dashboard
(`src/updated_website_0704.py`).  The filter engine is embedded from the
source; the MCDA algorithms (TOPSIS, PROMETHEE II, entropy weighting,
rank assignment) live in the external `pymcdm` package, which is not part
of the repository sources, so they are modelled from the design
specification.
-/

/-! ## Filter engine, embedded from `filter_dataframe` (src lines 51-70).

A dataframe is a list of rows; a cell holds `none` for a missing (NaN)
value.  `pandas` semantics embedded here: `Series.between` is `False` on a
NaN value or a NaN bound, and `Series.min`/`Series.max` skip NaN cells. -/

structure Row where
  name : String
  attrs : List (String × Option ℚ)
deriving DecidableEq

def Row.get (r : Row) (c : String) : Option ℚ :=
  match r.attrs.lookup c with
  | some v => v
  | none => none

/-- Minimum of a list of rationals, `none` on `[]`. -/
def listMin : List ℚ → Option ℚ
  | [] => none
  | a :: l =>
    match listMin l with
    | none => some a
    | some w => some (min a w)

/-- Maximum of a list of rationals, `none` on `[]`. -/
def listMax : List ℚ → Option ℚ
  | [] => none
  | a :: l =>
    match listMax l with
    | none => some a
    | some w => some (max a w)

/-- `_df[c].min()`: minimum of the non-missing cells of column `c`. -/
def colMin (df : List Row) (c : String) : Option ℚ :=
  listMin (df.filterMap (fun r => r.get c))

/-- `_df[c].max()`. -/
def colMax (df : List Row) (c : String) : Option ℚ :=
  listMax (df.filterMap (fun r => r.get c))

/-- `v.between(lo, hi, inclusive='both')` with NaN semantics: false when
the value or either bound is missing. -/
def betweenOpt (v lo hi : Option ℚ) : Bool :=
  match v, lo, hi with
  | some v, some lo, some hi => decide (lo ≤ v) && decide (v ≤ hi)
  | _, _, _ => false

/-- `filters.get(c, (_df[c].min(), _df[c].max()))`. -/
def ruleRange (df : List Row) (filters : List (String × ℚ × ℚ)) (c : String) :
    Option ℚ × Option ℚ :=
  match filters.lookup c with
  | some (lo, hi) => (some lo, some hi)
  | none => (colMin df c, colMax df c)

/-- `filter_dataframe(_df, filters, selected_names)` from the source: the
four fixed criteria are range-checked (each against its supplied rule, or
against the column's own min/max when no rule is supplied), then the
optional name allowlist is applied. -/
def filter_dataframe (df : List Row) (filters : List (String × ℚ × ℚ))
    (selected_names : Option (List String)) : List Row :=
  let bandgap_range := ruleRange df filters "Bandgap"
  let esg_range := ruleRange df filters "ESG Score"
  let toxicity_range := ruleRange df filters "Toxicity"
  let co2_range := ruleRange df filters "CO2 footprint max (kg/kg)"
  let filtered := df.filter fun r =>
    betweenOpt (r.get "Bandgap") bandgap_range.1 bandgap_range.2 &&
    betweenOpt (r.get "ESG Score") esg_range.1 esg_range.2 &&
    betweenOpt (r.get "Toxicity") toxicity_range.1 toxicity_range.2 &&
    betweenOpt (r.get "CO2 footprint max (kg/kg)") co2_range.1 co2_range.2
  match selected_names with
  | some names => filtered.filter fun r => names.contains r.name
  | none => filtered

/-- The four criteria `filter_dataframe` actually range-checks. -/
def filterCols : List String :=
  ["Bandgap", "ESG Score", "Toxicity", "CO2 footprint max (kg/kg)"]

/-- Row-level predicate characterising `filter_dataframe`: for each of the
four supported criteria the cell is present and, when a rule was supplied,
inside it; plus the name-allowlist test. -/
def ruleOk (filters : List (String × ℚ × ℚ)) (r : Row) (c : String) : Bool :=
  match r.get c, filters.lookup c with
  | some v, some (lo, hi) => decide (lo ≤ v) && decide (v ≤ hi)
  | some _, none => true
  | none, _ => false

def nameOk (selected_names : Option (List String)) (r : Row) : Bool :=
  match selected_names with
  | some names => names.contains r.name
  | none => true

def passes (filters : List (String × ℚ × ℚ)) (selected_names : Option (List String))
    (r : Row) : Bool :=
  filterCols.all (ruleOk filters r) && nameOk selected_names r

/-- The filter contract exactly as the claim words it: a row qualifies iff
it satisfies every supplied `(min, max)` rule inclusively (criteria with no
rule unconstrained) and, when a name set is supplied, its name belongs to
it. -/
def specQualifies (filters : List (String × ℚ × ℚ))
    (selected_names : Option (List String)) (r : Row) : Bool :=
  (filters.all fun p =>
    match r.get p.1 with
    | some v => decide (p.2.1 ≤ v) && decide (v ≤ p.2.2)
    | none => false) &&
  nameOk selected_names r

/-- Row with a rule-ignored attribute: `filter_dataframe` never reads
`Production (ton)`. -/
def rowA : Row :=
  ⟨"A", [("Bandgap", some 1), ("ESG Score", some 1), ("Toxicity", some 1),
         ("CO2 footprint max (kg/kg)", some 1), ("Production (ton)", some 5)]⟩

/-- Row with a missing Bandgap cell. -/
def rowB : Row :=
  ⟨"B", [("Bandgap", none), ("ESG Score", some 1), ("Toxicity", some 1),
         ("CO2 footprint max (kg/kg)", some 1), ("Production (ton)", some 0)]⟩

/-- A rule mapping for a criterion outside the four supported ones. -/
def fsC1 : List (String × ℚ × ℚ) := [("Production (ton)", (0, 0))]

/-- A fully populated row used to witness C10 on a concrete run. -/
def rowW : Row :=
  ⟨"W", [("Bandgap", some 1), ("ESG Score", some 2), ("Toxicity", some 0),
         ("CO2 footprint max (kg/kg)", some 3)]⟩

/-! ## MCDA engine.

The ranking and weighting algorithms are implemented by the external
`pymcdm` package (`TOPSIS`, `PROMETHEE_II('usual')`, `entropy_weights`,
`rankdata`), which is not part of the repository sources; the wrappers
`run_topsis` / `run_promethee` / `calculate_weights` in the source only
delegate.  They are modelled here from the design specification (§4.2,
§4.3), over the reals. -/

/-- Manual weighting from `main` (src lines 585-590): importance scores
from the 0-5 sliders; all-zero scores are replaced by the uniform vector
`np.ones(n)/n`, otherwise each score is divided by the total. -/
def manualWeights (scores : List ℕ) : List ℚ :=
  if scores.sum = 0 then List.replicate scores.length (1 / (scores.length : ℚ))
  else scores.map fun s : ℕ => (s : ℚ) / (scores.sum : ℚ)

/-- Benefit direction for one criterion. -/
def ty1 : Fin 1 → ℤ := fun _ => 1

/-- Scenario directions `[+1, -1]`. -/
def t3 : Fin 2 → ℤ := ![1, -1]

noncomputable section

/-- Modelled from the spec: PROMETHEE II step 1 — the directed pairwise
difference scaled by the criterion direction (benefit `+1`: `x_i - x_j`;
cost: `x_j - x_i`).  The deciding code, `pymcdm.methods.PROMETHEE_II`, is
missing from the sources. -/
def pairDiff {m k : ℕ} (M : Fin m → Fin k → ℝ) (t : Fin k → ℤ) (i j : Fin m)
    (c : Fin k) : ℝ :=
  if t c = 1 then M i c - M j c else M j c - M i c

/-- Modelled from the spec: the "usual" preference function — 1 on a
strictly positive scaled difference, else 0. -/
def usualPref (d : ℝ) : ℝ := if 0 < d then 1 else 0

/-- Modelled from the spec: weighted aggregated preference
`π(i,j) = Σ weight_c * preference_c(i,j)`. -/
def aggPref {m k : ℕ} (M : Fin m → Fin k → ℝ) (w : Fin k → ℝ) (t : Fin k → ℤ)
    (i j : Fin m) : ℝ :=
  ∑ c, w c * usualPref (pairDiff M t i j c)

/-- Modelled from the spec: leaving flow `φ+ = (1/(n-1)) Σ_j π(i,j)`. -/
def leavingFlow {m k : ℕ} (M : Fin m → Fin k → ℝ) (w : Fin k → ℝ) (t : Fin k → ℤ)
    (i : Fin m) : ℝ :=
  (1 / ((m : ℝ) - 1)) * ∑ j, aggPref M w t i j

/-- Modelled from the spec: entering flow `φ- = (1/(n-1)) Σ_j π(j,i)`. -/
def enteringFlow {m k : ℕ} (M : Fin m → Fin k → ℝ) (w : Fin k → ℝ) (t : Fin k → ℤ)
    (i : Fin m) : ℝ :=
  (1 / ((m : ℝ) - 1)) * ∑ j, aggPref M w t j i

/-- Modelled from the spec: net flow `φ = φ+ - φ-`. -/
def netFlow {m k : ℕ} (M : Fin m → Fin k → ℝ) (w : Fin k → ℝ) (t : Fin k → ℤ)
    (i : Fin m) : ℝ :=
  leavingFlow M w t i - enteringFlow M w t i

/-- Modelled from the spec: rank assignment for
`rankdata(scores, reverse=True)` (`pymcdm.helpers`, missing from the
sources) — descending competitive ranking: 1 plus the number of rows with
strictly greater score; equal scores share a rank. -/
def rankOf {n : ℕ} (s : Fin n → ℝ) (i : Fin n) : ℕ :=
  1 + ∑ j, if s i < s j then 1 else 0

/-- Score vector for the C5 witness. -/
def sW : Fin 2 → ℝ := ![2, 1]

/-- Modelled from the spec: entropy weighting step 1 — per-column
probability-like share, each value divided by the column sum
(`pymcdm.weights.entropy_weights` is missing from the sources). -/
def colShare {m k : ℕ} (M : Fin m → Fin k → ℝ) (i : Fin m) (j : Fin k) : ℝ :=
  M i j / ∑ i', M i' j

/-- Modelled from the spec: normalized Shannon entropy of a column — the
natural-log entropy of the shares divided by the log of the row count. -/
def colEntropy {m k : ℕ} (M : Fin m → Fin k → ℝ) (j : Fin k) : ℝ :=
  (∑ i, Real.negMulLog (colShare M i j)) / Real.log m

/-- Modelled from the spec: diversification degree `1 - entropy`. -/
def divDegree {m k : ℕ} (M : Fin m → Fin k → ℝ) (j : Fin k) : ℝ :=
  1 - colEntropy M j

/-- Modelled from the spec: entropy weights — the diversification degrees
normalized across columns to sum to 1. -/
def entropy_weights {m k : ℕ} (M : Fin m → Fin k → ℝ) (j : Fin k) : ℝ :=
  divDegree M j / ∑ j', divDegree M j'

/-- `calculate_weights` from the source (lines 72-76): entropy dispatch,
any other method string returns `None`. -/
def calculate_weights {m k : ℕ} (matrix : Fin m → Fin k → ℝ) (method : String) :
    Option (Fin k → ℝ) :=
  if method = "entropy" then some (entropy_weights matrix) else none

/-- Nonnegative matrix with one dispersed column, for the C4 witness. -/
def Mw : Fin 2 → Fin 1 → ℝ := ![![1], ![0]]

/-- Constant (fully nondispersed) nonnegative matrix. -/
def Mc : Fin 2 → Fin 1 → ℝ := ![![1], ![1]]

/-! ### TOPSIS, modelled from the spec (`pymcdm.methods.TOPSIS` is missing
from the sources). -/

/-- Modelled from the spec: TOPSIS step 1 — Euclidean norm of column j. -/
def colNorm {m k : ℕ} (M : Fin m → Fin k → ℝ) (j : Fin k) : ℝ :=
  Real.sqrt (∑ i, M i j ^ 2)

/-- Modelled from the spec: weighted vector-normalized entry — the raw
entry divided by its column's Euclidean norm, times the column weight. -/
def wnorm {m k : ℕ} (M : Fin m → Fin k → ℝ) (w : Fin k → ℝ) (i : Fin m)
    (j : Fin k) : ℝ :=
  w j * (M i j / colNorm M j)

/-- Modelled from the spec: ideal-best value of column j — the column
maximum of the weighted normalized matrix on a benefit criterion (+1), the
column minimum on a cost criterion. -/
def idealBest {m k : ℕ} (M : Fin (m + 1) → Fin k → ℝ) (w : Fin k → ℝ)
    (t : Fin k → ℤ) (j : Fin k) : ℝ :=
  if t j = 1 then Finset.univ.sup' Finset.univ_nonempty fun i => wnorm M w i j
  else Finset.univ.inf' Finset.univ_nonempty fun i => wnorm M w i j

/-- Modelled from the spec: ideal-worst value of column j. -/
def idealWorst {m k : ℕ} (M : Fin (m + 1) → Fin k → ℝ) (w : Fin k → ℝ)
    (t : Fin k → ℤ) (j : Fin k) : ℝ :=
  if t j = 1 then Finset.univ.inf' Finset.univ_nonempty fun i => wnorm M w i j
  else Finset.univ.sup' Finset.univ_nonempty fun i => wnorm M w i j

/-- Modelled from the spec: Euclidean distance d+ from row i to the
ideal-best vector. -/
def dPlus {m k : ℕ} (M : Fin (m + 1) → Fin k → ℝ) (w : Fin k → ℝ)
    (t : Fin k → ℤ) (i : Fin (m + 1)) : ℝ :=
  Real.sqrt (∑ j, (wnorm M w i j - idealBest M w t j) ^ 2)

/-- Modelled from the spec: Euclidean distance d- to the ideal-worst
vector. -/
def dMinus {m k : ℕ} (M : Fin (m + 1) → Fin k → ℝ) (w : Fin k → ℝ)
    (t : Fin k → ℤ) (i : Fin (m + 1)) : ℝ :=
  Real.sqrt (∑ j, (wnorm M w i j - idealWorst M w t j) ^ 2)

/-- Modelled from the spec: TOPSIS score `d- / (d+ + d-)`, defined as 0 in
the degenerate `0/0` case of a row coinciding with both ideals. -/
def topsisScore {m k : ℕ} (M : Fin (m + 1) → Fin k → ℝ) (w : Fin k → ℝ)
    (t : Fin k → ℤ) (i : Fin (m + 1)) : ℝ :=
  if dPlus M w t i + dMinus M w t i = 0 then 0
  else dMinus M w t i / (dPlus M w t i + dMinus M w t i)

/-- Row i of the raw matrix equals the ideal-best vector: per-column
maximum on every benefit criterion, per-column minimum on every cost
criterion. -/
def isIdealBestRow {m k : ℕ} (M : Fin m → Fin k → ℝ) (t : Fin k → ℤ)
    (i : Fin m) : Prop :=
  ∀ j i', (t j = 1 → M i' j ≤ M i j) ∧ (t j ≠ 1 → M i j ≤ M i' j)

/-- Row i of the raw matrix equals the ideal-worst vector. -/
def isIdealWorstRow {m k : ℕ} (M : Fin m → Fin k → ℝ) (t : Fin k → ℤ)
    (i : Fin m) : Prop :=
  ∀ j i', (t j = 1 → M i j ≤ M i' j) ∧ (t j ≠ 1 → M i' j ≤ M i j)

/-- Constant one-row matrix: its single row is simultaneously ideal-best
and ideal-worst. -/
def M1 : Fin 1 → Fin 1 → ℝ := ![![1]]

/-- Unit weight vector for one criterion. -/
def w1 : Fin 1 → ℝ := fun _ => 1

/-- Two-row one-column matrix `(2; 1)` for the C2 witness: row 0 is the
ideal-best row, row 1 the ideal-worst row. -/
def M2 : Fin 2 → Fin 1 → ℝ := ![![2], ![1]]

/-! ### The spec's end-to-end scenario (C6). -/

/-- Scenario matrix `[[1,2],[2,1],[1.5,1.5]]`. -/
def M3 : Fin 3 → Fin 2 → ℝ := ![![1, 2], ![2, 1], ![3 / 2, 3 / 2]]

/-- Scenario weights `[0.5, 0.5]`. -/
def w3 : Fin 2 → ℝ := ![1 / 2, 1 / 2]

/-- Common scaling factor of the scenario's weighted normalized matrix:
both columns have Euclidean norm `√(29/4)` and weight `1/2`. -/
def cM3 : ℝ := (1 / 2) / Real.sqrt (29 / 4)

end

lemma listMin_le {l : List ℚ} {v : ℚ} (hv : v ∈ l) :
    ∃ m, listMin l = some m ∧ m ≤ v := by
  induction l with
  | nil => cases hv
  | cons a l ih =>
    rcases List.mem_cons.1 hv with rfl | hv'
    · cases hl : listMin l with
      | none => exact ⟨v, by simp [listMin, hl], le_refl v⟩
      | some w => exact ⟨min v w, by simp [listMin, hl], min_le_left _ _⟩
    · obtain ⟨m, hm, hle⟩ := ih hv'
      exact ⟨min a m, by simp [listMin, hm], le_trans (min_le_right _ _) hle⟩

lemma le_listMax {l : List ℚ} {v : ℚ} (hv : v ∈ l) :
    ∃ m, listMax l = some m ∧ v ≤ m := by
  induction l with
  | nil => cases hv
  | cons a l ih =>
    rcases List.mem_cons.1 hv with rfl | hv'
    · cases hl : listMax l with
      | none => exact ⟨v, by simp [listMax, hl], le_refl v⟩
      | some w => exact ⟨max v w, by simp [listMax, hl], le_max_left _ _⟩
    · obtain ⟨m, hm, hle⟩ := ih hv'
      exact ⟨max a m, by simp [listMax, hm], le_trans hle (le_max_right _ _)⟩

/-- On a row of the dataframe, the per-criterion `between` test of
`filter_dataframe` agrees with the df-independent predicate `ruleOk`. -/
lemma betweenOpt_ruleRange_eq {df : List Row} {r : Row} (hr : r ∈ df)
    (filters : List (String × ℚ × ℚ)) (c : String) :
    betweenOpt (r.get c) (ruleRange df filters c).1 (ruleRange df filters c).2 =
      ruleOk filters r c := by
  cases hf : filters.lookup c with
  | some p =>
    obtain ⟨lo, hi⟩ := p
    cases hv : r.get c <;> simp [betweenOpt, ruleRange, ruleOk, hf, hv]
  | none =>
    cases hv : r.get c with
    | none => simp [betweenOpt, ruleRange, ruleOk, hf, hv]
    | some v =>
      have hvmem : v ∈ df.filterMap (fun r => r.get c) :=
        List.mem_filterMap.2 ⟨r, hr, hv⟩
      obtain ⟨mn, hmn, hmnle⟩ := listMin_le hvmem
      obtain ⟨mx, hmx, hmxle⟩ := le_listMax hvmem
      simp [betweenOpt, ruleRange, ruleOk, hf, hv, colMin, colMax, hmn, hmx,
        hmnle, hmxle]

/-- Characterisation of the embedded filter: it is `List.filter` with the
df-independent predicate `passes`. -/
lemma filter_dataframe_eq (df : List Row) (filters : List (String × ℚ × ℚ))
    (selected_names : Option (List String)) :
    filter_dataframe df filters selected_names = df.filter (passes filters selected_names) := by
  have hmain : (df.filter fun r =>
      betweenOpt (r.get "Bandgap") (ruleRange df filters "Bandgap").1
        (ruleRange df filters "Bandgap").2 &&
      betweenOpt (r.get "ESG Score") (ruleRange df filters "ESG Score").1
        (ruleRange df filters "ESG Score").2 &&
      betweenOpt (r.get "Toxicity") (ruleRange df filters "Toxicity").1
        (ruleRange df filters "Toxicity").2 &&
      betweenOpt (r.get "CO2 footprint max (kg/kg)")
        (ruleRange df filters "CO2 footprint max (kg/kg)").1
        (ruleRange df filters "CO2 footprint max (kg/kg)").2) =
      df.filter fun r => filterCols.all (ruleOk filters r) := by
    apply List.filter_congr
    intro r hr
    rw [betweenOpt_ruleRange_eq hr, betweenOpt_ruleRange_eq hr,
      betweenOpt_ruleRange_eq hr, betweenOpt_ruleRange_eq hr]
    simp [filterCols, Bool.and_assoc]
  cases selected_names with
  | none =>
    show (df.filter _) = _
    rw [hmain]
    apply List.filter_congr
    intro r _
    simp [passes, nameOk]
  | some names =>
    show (df.filter _).filter _ = _
    rw [hmain, List.filter_filter]
    apply List.filter_congr
    intro r _
    simp [passes, nameOk, Bool.and_comm]

lemma ruleOk_get_ne_none {filters : List (String × ℚ × ℚ)} {r : Row} {c : String}
    (h : ruleOk filters r c = true) : r.get c ≠ none := by
  intro hn
  cases hl : filters.lookup c <;> simp [ruleOk, hn, hl] at h

/-- C1, counterexample.  With a supplied `Production (ton)` rule `(0, 0)`,
the code keeps row `A` (production 5, violating the rule) and drops row `B`
(production 0, satisfying every supplied rule, only its unconstrained
Bandgap cell missing) — the exact opposite of the claimed contract. -/
theorem filter_contract_counterexample :
    filter_dataframe [rowA, rowB] fsC1 none = [rowA] ∧
    specQualifies fsC1 none rowA = false ∧
    specQualifies fsC1 none rowB = true := by
  decide

/-- C1, amended: `filter_dataframe` returns exactly the rows that have a
present (non-NaN) value in each of the four supported criteria columns
(Bandgap, ESG Score, Toxicity, CO2 footprint max), satisfy every supplied
rule among those four criteria inclusively (rules for any other key are
ignored), and, when a name set is supplied, whose Name belongs to it; it
never errors (it is a total function returning a possibly empty list). -/
theorem filter_contract_amended (df : List Row) (filters : List (String × ℚ × ℚ))
    (selected_names : Option (List String)) :
    filter_dataframe df filters selected_names =
      df.filter (passes filters selected_names) :=
  filter_dataframe_eq df filters selected_names

/-- C8: filtering is idempotent — applying `filter_dataframe` to its own
output with the same rules and name set returns the identical list. -/
theorem filter_idempotent (df : List Row) (filters : List (String × ℚ × ℚ))
    (selected_names : Option (List String)) :
    filter_dataframe (filter_dataframe df filters selected_names) filters selected_names =
      filter_dataframe df filters selected_names := by
  simp only [filter_dataframe_eq, List.filter_filter]
  apply List.filter_congr
  intro r _
  rw [Bool.and_self]

/-- C10: every row returned by `filter_dataframe` has a present (non-NaN)
value in each of the four columns Bandgap, ESG Score, Toxicity and
CO2 footprint max, even for criteria with no supplied rule. -/
theorem filter_output_no_missing (df : List Row) (filters : List (String × ℚ × ℚ))
    (selected_names : Option (List String)) (r : Row)
    (hr : r ∈ filter_dataframe df filters selected_names) :
    r.get "Bandgap" ≠ none ∧ r.get "ESG Score" ≠ none ∧
    r.get "Toxicity" ≠ none ∧ r.get "CO2 footprint max (kg/kg)" ≠ none := by
  rw [filter_dataframe_eq] at hr
  have hp := (List.mem_filter.1 hr).2
  simp only [passes, filterCols, List.all_cons, List.all_nil, Bool.and_eq_true,
    Bool.and_true, and_true] at hp
  exact ⟨ruleOk_get_ne_none hp.1.1, ruleOk_get_ne_none hp.1.2.1,
    ruleOk_get_ne_none hp.1.2.2.1, ruleOk_get_ne_none hp.1.2.2.2⟩

/-- C10 witness: concrete run of the filter containing `rowW`. -/
theorem filter_output_no_missing_witness :
    rowW.get "Bandgap" ≠ none ∧ rowW.get "ESG Score" ≠ none ∧
    rowW.get "Toxicity" ≠ none ∧ rowW.get "CO2 footprint max (kg/kg)" ≠ none :=
  filter_output_no_missing [rowW] [] none rowW (by decide)

/-- C3: the PROMETHEE II net flows over all rows sum to exactly zero, for
every matrix, weight vector and direction vector. -/
theorem promethee_netflow_sum_zero {m k : ℕ} (M : Fin m → Fin k → ℝ)
    (w : Fin k → ℝ) (t : Fin k → ℤ) :
    ∑ i, netFlow M w t i = 0 := by
  simp only [netFlow, leavingFlow, enteringFlow]
  rw [Finset.sum_sub_distrib, ← Finset.mul_sum, ← Finset.mul_sum, Finset.sum_comm]
  exact sub_self _

/-- C7: on a single-row matrix the modelled PROMETHEE defines the net flow
as 0 (the aggregated preference of a row against itself vanishes, so the
undefined `1/(n-1)` factor multiplies a zero sum); no uncontrolled
division-by-zero value is produced. -/
theorem promethee_single_row_flow_zero {k : ℕ} (M : Fin 1 → Fin k → ℝ)
    (w : Fin k → ℝ) (t : Fin k → ℤ) (i : Fin 1) :
    netFlow M w t i = 0 := by
  have hπ : ∀ a b : Fin 1, aggPref M w t a b = 0 := by
    intro a b
    have hab : a = b := Subsingleton.elim a b
    subst hab
    apply Finset.sum_eq_zero
    intro c _
    have hd : pairDiff M t a a c = 0 := by unfold pairDiff; split <;> ring
    rw [hd]
    simp [usualPref]
  unfold netFlow leavingFlow enteringFlow
  rw [Finset.sum_eq_zero fun j _ => hπ i j, Finset.sum_eq_zero fun j _ => hπ j i]
  ring

/-- C5: rank is a monotonic non-increasing function of score — a strictly
greater score gives a rank that is at most the other's, and equal scores
give equal ranks. -/
theorem rank_monotone {n : ℕ} (s : Fin n → ℝ) (i j : Fin n) :
    (s j < s i → rankOf s i ≤ rankOf s j) ∧ (s i = s j → rankOf s i = rankOf s j) := by
  constructor
  · intro hij
    apply Nat.add_le_add_left
    apply Finset.sum_le_sum
    intro x _
    by_cases h : s i < s x
    · rw [if_pos h, if_pos (lt_trans hij h)]
    · rw [if_neg h]
      exact Nat.zero_le _
  · intro he
    unfold rankOf
    congr 1
    apply Finset.sum_congr rfl
    intro x _
    rw [he]

/-- C5 witness: on the concrete score vector `(2, 1)` the better-scored row
gets the smaller-or-equal rank, and a row tied with itself keeps its rank. -/
theorem rank_monotone_witness :
    sW 1 < sW 0 ∧ rankOf sW 0 ≤ rankOf sW 1 ∧ rankOf sW 0 = rankOf sW 0 := by
  have h1 : sW 1 < sW 0 := by norm_num [sW]
  exact ⟨h1, (rank_monotone sW 0 1).1 h1, (rank_monotone sW 0 0).2 rfl⟩

/-- C9: for every method string other than `"entropy"` (including
`"manual"`), `calculate_weights` returns `None` — no weights, no error. -/
theorem calculate_weights_non_entropy {m k : ℕ} (matrix : Fin m → Fin k → ℝ)
    (method : String) (h : method ≠ "entropy") :
    calculate_weights matrix method = none := by
  simp [calculate_weights, h]

/-- C9 witness: the `"manual"` method string on a concrete matrix. -/
theorem calculate_weights_non_entropy_witness :
    calculate_weights (fun (_ : Fin 1) (_ : Fin 1) => (1 : ℝ)) "manual" = none :=
  calculate_weights_non_entropy _ "manual" (by decide)

lemma sum_colShare {m k : ℕ} (M : Fin m → Fin k → ℝ) (j : Fin k)
    (hS : (∑ i', M i' j) ≠ 0) : ∑ i, colShare M i j = 1 := by
  simp only [colShare]
  rw [← Finset.sum_div, div_self hS]

/-- Gibbs bound via Jensen: on a nonnegative matrix every normalized column
entropy is at most 1. -/
lemma colEntropy_le_one {m k : ℕ} (M : Fin m → Fin k → ℝ)
    (hM : ∀ i j, 0 ≤ M i j) (j : Fin k) : colEntropy M j ≤ 1 := by
  rcases Nat.lt_or_ge m 2 with hm | hm
  · interval_cases m <;> norm_num [colEntropy]
  · have hm1 : (1 : ℝ) < (m : ℝ) := by exact_mod_cast hm
    have hlog : 0 < Real.log m := Real.log_pos hm1
    rw [colEntropy, div_le_one hlog]
    have hS0 : 0 ≤ ∑ i', M i' j := Finset.sum_nonneg fun i _ => hM i j
    rcases hS0.lt_or_eq with hSpos | hSzero
    · have h0 : ∀ i ∈ (Finset.univ : Finset (Fin m)),
          0 ≤ (fun _ : Fin m => 1 / (m : ℝ)) i := fun i _ => by positivity
      have hcard : ∑ _i : Fin m, (1 / (m : ℝ)) = 1 := by
        rw [Finset.sum_const, Finset.card_univ, Fintype.card_fin, nsmul_eq_mul]
        have : (m : ℝ) ≠ 0 := by positivity
        field_simp
      have hmem : ∀ i ∈ (Finset.univ : Finset (Fin m)),
          colShare M i j ∈ Set.Ici (0 : ℝ) :=
        fun i _ => Set.mem_Ici.2 (div_nonneg (hM i j) hS0)
      have hjensen := Real.concaveOn_negMulLog.le_map_sum h0 hcard hmem
      simp only [smul_eq_mul] at hjensen
      rw [← Finset.mul_sum, ← Finset.mul_sum, sum_colShare M j hSpos.ne',
        mul_one] at hjensen
      have hneg : Real.negMulLog (1 / (m : ℝ)) = (1 / (m : ℝ)) * Real.log m := by
        simp only [Real.negMulLog, one_div, Real.log_inv]
        ring
      rw [hneg] at hjensen
      exact (mul_le_mul_left (by positivity)).1 hjensen
    · have hzero : ∀ i ∈ (Finset.univ : Finset (Fin m)), M i j = (0 : ℝ) :=
        (Finset.sum_eq_zero_iff_of_nonneg fun i _ => hM i j).1 hSzero.symm
      have hz : ∑ i, Real.negMulLog (colShare M i j) = 0 :=
        Finset.sum_eq_zero fun i _ => by
          simp [colShare, hzero i (Finset.mem_univ i)]
      rw [hz]
      exact hlog.le

lemma divDegree_nonneg {m k : ℕ} (M : Fin m → Fin k → ℝ)
    (hM : ∀ i j, 0 ≤ M i j) (j : Fin k) : 0 ≤ divDegree M j := by
  have h := colEntropy_le_one M hM j
  unfold divDegree
  linarith

/-- C4, amended: both weighting strategies produce a vector of the criteria
count's length, with nonnegative entries summing to exactly 1 — the manual
strategy for every nonempty score list (with the all-zero uniform fallback
and the score/total normalization exactly as claimed), and the entropy
strategy for every nonnegative matrix whose diversification degrees do not
all vanish. -/
theorem weight_vectors_valid :
    (∀ scores : List ℕ, scores ≠ [] →
      (manualWeights scores).length = scores.length ∧
      (∀ q ∈ manualWeights scores, 0 ≤ q) ∧
      (manualWeights scores).sum = 1 ∧
      (scores.sum = 0 →
        manualWeights scores = List.replicate scores.length (1 / (scores.length : ℚ))) ∧
      (scores.sum ≠ 0 →
        manualWeights scores = scores.map fun s : ℕ => (s : ℚ) / (scores.sum : ℚ))) ∧
    (∀ (m k : ℕ) (M : Fin m → Fin k → ℝ), (∀ i j, 0 ≤ M i j) →
      (∑ j', divDegree M j') ≠ 0 →
      (∀ j, 0 ≤ entropy_weights M j) ∧ ∑ j, entropy_weights M j = 1) := by
  constructor
  · intro scores hne
    have hlen0 : scores.length ≠ 0 := fun h => hne (List.length_eq_zero.1 h)
    by_cases hsum : scores.sum = 0
    · have hmw : manualWeights scores =
          List.replicate scores.length (1 / (scores.length : ℚ)) := by
        simp only [manualWeights, if_pos hsum]
      refine ⟨?_, ?_, ?_, fun _ => hmw, fun h => absurd hsum h⟩
      · rw [hmw, List.length_replicate]
      · intro q hq
        rw [hmw] at hq
        rw [List.eq_of_mem_replicate hq]
        positivity
      · rw [hmw, List.sum_replicate, nsmul_eq_mul, mul_one_div,
          div_self (Nat.cast_ne_zero.2 hlen0)]
    · have hmw : manualWeights scores =
          scores.map fun s : ℕ => (s : ℚ) / (scores.sum : ℚ) := by
        simp only [manualWeights, if_neg hsum]
      refine ⟨?_, ?_, ?_, fun h => absurd h hsum, fun _ => hmw⟩
      · rw [hmw, List.length_map]
      · intro q hq
        rw [hmw] at hq
        obtain ⟨s, _, rfl⟩ := List.mem_map.1 hq
        positivity
      · have hcast : (scores.sum : ℚ) ≠ 0 := Nat.cast_ne_zero.2 hsum
        have hfun : (fun s : ℕ => (s : ℚ) / (scores.sum : ℚ)) =
            fun s : ℕ => (s : ℚ) * ((scores.sum : ℚ))⁻¹ := by
          funext s
          rw [div_eq_mul_inv]
        rw [hmw, hfun, List.sum_map_mul_right, ← Nat.cast_list_sum,
          mul_inv_cancel₀ hcast]
  · intro m k M hM hS
    have hEnn : ∀ j, 0 ≤ divDegree M j := divDegree_nonneg M hM
    have hSpos : 0 < ∑ j', divDegree M j' :=
      (Finset.sum_nonneg fun j _ => hEnn j).lt_of_ne (Ne.symm hS)
    refine ⟨fun j => div_nonneg (hEnn j) hSpos.le, ?_⟩
    simp only [entropy_weights]
    rw [← Finset.sum_div, div_self hS]

lemma divDegree_Mw : divDegree Mw 0 = 1 := by
  have hshare0 : colShare Mw 0 0 = 1 := by
    simp [colShare, Fin.sum_univ_two, Mw, Matrix.cons_val_zero, Matrix.cons_val_one,
      Matrix.head_cons]
  have hshare1 : colShare Mw 1 0 = 0 := by
    simp [colShare, Fin.sum_univ_two, Mw, Matrix.cons_val_zero, Matrix.cons_val_one,
      Matrix.head_cons]
  simp [divDegree, colEntropy, Fin.sum_univ_two, hshare0, hshare1]

lemma sum_divDegree_Mw : ∑ j', divDegree Mw j' = 1 := by
  rw [Fin.sum_univ_one, divDegree_Mw]

/-- C4 witness: a concrete manual run `[2, 3]` and a concrete entropy run
on `Mw` both yield unit-sum weights. -/
theorem weight_vectors_valid_witness :
    (manualWeights [2, 3]).sum = 1 ∧ ∑ j, entropy_weights Mw j = 1 := by
  have hMw : ∀ i j, 0 ≤ Mw i j := by
    intro i j
    fin_cases i <;> fin_cases j <;>
      norm_num [Mw, Matrix.cons_val_zero, Matrix.cons_val_one, Matrix.head_cons]
  have hS : (∑ j', divDegree Mw j') ≠ 0 := by
    rw [sum_divDegree_Mw]
    norm_num
  exact ⟨(weight_vectors_valid.1 [2, 3] (by decide)).2.2.1,
    (weight_vectors_valid.2 2 1 Mw hMw hS).2⟩

lemma colEntropy_Mc : colEntropy Mc 0 = 1 := by
  have hlog2 : Real.log 2 ≠ 0 := (Real.log_pos (by norm_num)).ne'
  have hshare : ∀ i : Fin 2, colShare Mc i 0 = 1 / 2 := by
    intro i
    fin_cases i <;>
      norm_num [colShare, Fin.sum_univ_two, Mc, Matrix.cons_val_zero, Matrix.cons_val_one,
        Matrix.head_cons]
  have hneg : Real.negMulLog (1 / 2 : ℝ) = (1 / 2) * Real.log 2 := by
    simp only [Real.negMulLog, one_div, Real.log_inv]
    ring
  rw [colEntropy, Fin.sum_univ_two, hshare 0, hshare 1, hneg]
  rw [show ((2 : ℕ) : ℝ) = (2 : ℝ) by norm_num, div_eq_one_iff_eq hlog2]
  ring

/-- C4, counterexample.  On the constant nonnegative matrix `Mc` every
column has maximal entropy, all diversification degrees vanish, and the
normalization step divides zero by zero: in this real-valued model the
entropy weights all collapse to 0 (the floating-point code produces NaN),
so the produced vector does not sum to 1 — the claimed contract fails. -/
theorem entropy_weights_degenerate :
    (∀ i j, 0 ≤ Mc i j) ∧ ∑ j, entropy_weights Mc j = 0 ∧
      ∑ j, entropy_weights Mc j ≠ 1 := by
  have hM : ∀ i j, 0 ≤ Mc i j := by
    intro i j
    fin_cases i <;> fin_cases j <;>
      norm_num [Mc, Matrix.cons_val_zero, Matrix.cons_val_one, Matrix.head_cons]
  have hdd : divDegree Mc 0 = 0 := by
    rw [divDegree, colEntropy_Mc]
    ring
  have hw : ∑ j, entropy_weights Mc j = 0 := by
    rw [Fin.sum_univ_one, entropy_weights, Fin.sum_univ_one, hdd]
    simp
  exact ⟨hM, hw, by rw [hw]; norm_num⟩

lemma wnorm_mono {m k : ℕ} {M : Fin m → Fin k → ℝ} {w : Fin k → ℝ} {j : Fin k}
    (hw : 0 ≤ w j) {i i' : Fin m} (h : M i' j ≤ M i j) :
    wnorm M w i' j ≤ wnorm M w i j := by
  unfold wnorm
  refine mul_le_mul_of_nonneg_left ?_ hw
  rcases (Real.sqrt_nonneg (∑ i, M i j ^ 2)).lt_or_eq with h0 | h0
  · have h0' : 0 < colNorm M j := h0
    exact (div_le_div_iff_of_pos_right h0').2 h
  · have hN : colNorm M j = 0 := h0.symm
    rw [hN, div_zero, div_zero]

lemma idealBest_eq_row {m k : ℕ} {M : Fin (m + 1) → Fin k → ℝ} {w : Fin k → ℝ}
    {t : Fin k → ℤ} {i : Fin (m + 1)} (hw : ∀ j, 0 ≤ w j)
    (hbest : isIdealBestRow M t i) (j : Fin k) :
    idealBest M w t j = wnorm M w i j := by
  unfold idealBest
  split
  next ht =>
    exact le_antisymm
      (Finset.sup'_le _ _ fun i' _ => wnorm_mono (hw j) ((hbest j i').1 ht))
      (Finset.le_sup' (fun i' => wnorm M w i' j) (Finset.mem_univ i))
  next ht =>
    exact le_antisymm
      (Finset.inf'_le (fun i' => wnorm M w i' j) (Finset.mem_univ i))
      (Finset.le_inf' _ _ fun i' _ => wnorm_mono (hw j) ((hbest j i').2 ht))

lemma idealWorst_eq_row {m k : ℕ} {M : Fin (m + 1) → Fin k → ℝ} {w : Fin k → ℝ}
    {t : Fin k → ℤ} {i : Fin (m + 1)} (hw : ∀ j, 0 ≤ w j)
    (hworst : isIdealWorstRow M t i) (j : Fin k) :
    idealWorst M w t j = wnorm M w i j := by
  unfold idealWorst
  split
  next ht =>
    exact le_antisymm
      (Finset.inf'_le (fun i' => wnorm M w i' j) (Finset.mem_univ i))
      (Finset.le_inf' _ _ fun i' _ => wnorm_mono (hw j) ((hworst j i').1 ht))
  next ht =>
    exact le_antisymm
      (Finset.sup'_le _ _ fun i' _ => wnorm_mono (hw j) ((hworst j i').2 ht))
      (Finset.le_sup' (fun i' => wnorm M w i' j) (Finset.mem_univ i))

lemma dPlus_eq_zero {m k : ℕ} {M : Fin (m + 1) → Fin k → ℝ} {w : Fin k → ℝ}
    {t : Fin k → ℤ} {i : Fin (m + 1)} (hw : ∀ j, 0 ≤ w j)
    (hbest : isIdealBestRow M t i) : dPlus M w t i = 0 := by
  unfold dPlus
  have hz : ∀ j ∈ Finset.univ, (wnorm M w i j - idealBest M w t j) ^ 2 = 0 := by
    intro j _
    rw [idealBest_eq_row hw hbest j, sub_self]
    norm_num
  rw [Finset.sum_eq_zero hz, Real.sqrt_zero]

lemma dMinus_eq_zero {m k : ℕ} {M : Fin (m + 1) → Fin k → ℝ} {w : Fin k → ℝ}
    {t : Fin k → ℤ} {i : Fin (m + 1)} (hw : ∀ j, 0 ≤ w j)
    (hworst : isIdealWorstRow M t i) : dMinus M w t i = 0 := by
  unfold dMinus
  have hz : ∀ j ∈ Finset.univ, (wnorm M w i j - idealWorst M w t j) ^ 2 = 0 := by
    intro j _
    rw [idealWorst_eq_row hw hworst j, sub_self]
    norm_num
  rw [Finset.sum_eq_zero hz, Real.sqrt_zero]

/-- A row of the ideal-worst vector always scores 0 (also in the
degenerate `0/0` case, by the defined fallback). -/
lemma topsisScore_worst_row {m k : ℕ} {M : Fin (m + 1) → Fin k → ℝ}
    {w : Fin k → ℝ} {t : Fin k → ℤ} {i : Fin (m + 1)} (hw : ∀ j, 0 ≤ w j)
    (hworst : isIdealWorstRow M t i) : topsisScore M w t i = 0 := by
  have hdm := dMinus_eq_zero hw hworst
  unfold topsisScore
  rw [hdm, add_zero]
  split
  · rfl
  · exact zero_div _

/-- A row of the ideal-best vector whose weighted normalized vector differs
somewhere from the ideal-worst vector scores 1. -/
lemma topsisScore_best_row {m k : ℕ} {M : Fin (m + 1) → Fin k → ℝ}
    {w : Fin k → ℝ} {t : Fin k → ℤ} {i : Fin (m + 1)} (hw : ∀ j, 0 ≤ w j)
    (hbest : isIdealBestRow M t i)
    (hne : ∃ j, wnorm M w i j ≠ idealWorst M w t j) :
    topsisScore M w t i = 1 := by
  have hdp := dPlus_eq_zero hw hbest
  have hdm : 0 < dMinus M w t i := by
    unfold dMinus
    apply Real.sqrt_pos.2
    obtain ⟨j0, hj0⟩ := hne
    refine Finset.sum_pos' (fun j _ => sq_nonneg _) ⟨j0, Finset.mem_univ j0, ?_⟩
    have hne0 := sub_ne_zero.2 hj0
    positivity
  unfold topsisScore
  rw [hdp, zero_add, if_neg hdm.ne', div_self hdm.ne']

/-- C2, amended: for every matrix with nonnegative weights, a row equal to
the ideal-best vector scores 1.0 provided its weighted normalized vector
differs somewhere from the ideal-worst vector (otherwise the degenerate
`0/0` fallback gives 0), and a row equal to the ideal-worst vector scores
0.0 unconditionally. -/
theorem topsis_ideal_scores {m k : ℕ} (M : Fin (m + 1) → Fin k → ℝ)
    (w : Fin k → ℝ) (t : Fin k → ℤ) (hw : ∀ j, 0 ≤ w j) (i : Fin (m + 1)) :
    (isIdealBestRow M t i → (∃ j, wnorm M w i j ≠ idealWorst M w t j) →
      topsisScore M w t i = 1) ∧
    (isIdealWorstRow M t i → topsisScore M w t i = 0) :=
  ⟨fun hbest hne => topsisScore_best_row hw hbest hne,
   fun hworst => topsisScore_worst_row hw hworst⟩

/-- C2, counterexample.  In the one-row constant matrix `M1` row 0 equals
the ideal-best vector (it attains the per-column maximum of the single
benefit column), yet its TOPSIS score is the degenerate-case 0, not the
claimed 1.0. -/
theorem topsis_ideal_counterexample :
    isIdealBestRow M1 ty1 0 ∧ topsisScore M1 w1 ty1 0 = 0 ∧
      topsisScore M1 w1 ty1 0 ≠ 1 := by
  have hw : ∀ j, 0 ≤ w1 j := fun j => zero_le_one
  have hbest : isIdealBestRow M1 ty1 0 := by
    intro j i'
    have hi : i' = 0 := Subsingleton.elim _ _
    subst hi
    exact ⟨fun _ => le_refl _, fun _ => le_refl _⟩
  have hworst : isIdealWorstRow M1 ty1 0 := by
    intro j i'
    have hi : i' = 0 := Subsingleton.elim _ _
    subst hi
    exact ⟨fun _ => le_refl _, fun _ => le_refl _⟩
  have h0 := topsisScore_worst_row hw hworst
  exact ⟨hbest, h0, by rw [h0]; norm_num⟩

/-- C2 witness: on `M2` with weight 1 and a benefit direction, the
ideal-best row scores exactly 1 and the ideal-worst row exactly 0. -/
theorem topsis_ideal_scores_witness :
    topsisScore M2 w1 ty1 0 = 1 ∧ topsisScore M2 w1 ty1 1 = 0 := by
  have hw : ∀ j, 0 ≤ w1 j := fun j => zero_le_one
  have hbest : isIdealBestRow M2 ty1 0 := by
    intro j i'
    refine ⟨fun _ => ?_, fun h => absurd rfl h⟩
    fin_cases i' <;> fin_cases j <;>
      norm_num [M2, Matrix.cons_val_zero, Matrix.cons_val_one, Matrix.head_cons]
  have hworst : isIdealWorstRow M2 ty1 1 := by
    intro j i'
    refine ⟨fun _ => ?_, fun h => absurd rfl h⟩
    fin_cases i' <;> fin_cases j <;>
      norm_num [M2, Matrix.cons_val_zero, Matrix.cons_val_one, Matrix.head_cons]
  have hN : colNorm M2 0 = Real.sqrt 5 := by
    unfold colNorm
    rw [Fin.sum_univ_two]
    norm_num [M2, Matrix.cons_val_zero, Matrix.cons_val_one, Matrix.head_cons]
  have hne : ∃ j, wnorm M2 w1 0 j ≠ idealWorst M2 w1 ty1 j := by
    refine ⟨0, ?_⟩
    rw [idealWorst_eq_row hw hworst 0]
    unfold wnorm
    rw [hN]
    norm_num [M2, w1, Matrix.cons_val_zero, Matrix.cons_val_one, Matrix.head_cons]
    intro heq
    have h5 : 0 < Real.sqrt 5 := Real.sqrt_pos.2 (by norm_num)
    field_simp [h5.ne'] at heq
  exact ⟨(topsis_ideal_scores M2 w1 ty1 hw 0).1 hbest hne,
    (topsis_ideal_scores M2 w1 ty1 hw 1).2 hworst⟩

lemma cM3_pos : 0 < cM3 := by
  unfold cM3
  positivity

lemma M3_00 : M3 0 0 = 1 := by
  norm_num [M3, Matrix.cons_val_zero]

lemma M3_01 : M3 0 1 = 2 := by
  norm_num [M3, Matrix.cons_val_zero, Matrix.cons_val_one, Matrix.head_cons]

lemma M3_10 : M3 1 0 = 2 := by
  norm_num [M3, Matrix.cons_val_zero, Matrix.cons_val_one, Matrix.head_cons]

lemma M3_11 : M3 1 1 = 1 := by
  norm_num [M3, Matrix.cons_val_one, Matrix.head_cons]

lemma M3_20 : M3 2 0 = 3 / 2 := by
  norm_num [M3, Matrix.cons_val_zero, Matrix.cons_val_two, Matrix.head_cons,
    Matrix.tail_cons]

lemma M3_21 : M3 2 1 = 3 / 2 := by
  norm_num [M3, Matrix.cons_val_one, Matrix.cons_val_two, Matrix.head_cons,
    Matrix.tail_cons]

lemma colNorm_M3 (j : Fin 2) : colNorm M3 j = Real.sqrt (29 / 4) := by
  unfold colNorm
  fin_cases j <;>
  · rw [Fin.sum_univ_three]
    norm_num [M3, Matrix.cons_val_zero, Matrix.cons_val_one, Matrix.cons_val_two,
      Matrix.head_cons, Matrix.tail_cons]

lemma w3_apply (j : Fin 2) : w3 j = 1 / 2 := by
  fin_cases j <;>
    norm_num [w3, Matrix.cons_val_zero, Matrix.cons_val_one, Matrix.head_cons]

lemma hw3 : ∀ j, 0 ≤ w3 j := fun j => by
  rw [w3_apply]
  norm_num

lemma wnorm_M3 (i : Fin 3) (j : Fin 2) : wnorm M3 w3 i j = M3 i j * cM3 := by
  unfold wnorm cM3
  rw [colNorm_M3 j, w3_apply j]
  ring

/-- Row 1 `(2, 1)` attains the benefit maximum and the cost minimum: it is
the ideal-best row of the scenario. -/
lemma hbest1 : isIdealBestRow M3 t3 1 := by
  intro j i'
  constructor <;> intro h <;> fin_cases j <;>
    norm_num [t3, Matrix.cons_val_zero, Matrix.cons_val_one, Matrix.head_cons] at h <;>
    fin_cases i' <;>
    norm_num [M3, Matrix.cons_val_zero, Matrix.cons_val_one, Matrix.cons_val_two,
      Matrix.head_cons, Matrix.tail_cons]

/-- Row 0 `(1, 2)` attains the benefit minimum and the cost maximum: it is
the ideal-worst row of the scenario. -/
lemma hworst0 : isIdealWorstRow M3 t3 0 := by
  intro j i'
  constructor <;> intro h <;> fin_cases j <;>
    norm_num [t3, Matrix.cons_val_zero, Matrix.cons_val_one, Matrix.head_cons] at h <;>
    fin_cases i' <;>
    norm_num [M3, Matrix.cons_val_zero, Matrix.cons_val_one, Matrix.cons_val_two,
      Matrix.head_cons, Matrix.tail_cons]

lemma idealBest_M3 (j : Fin 2) : idealBest M3 w3 t3 j = M3 1 j * cM3 := by
  rw [idealBest_eq_row hw3 hbest1 j, wnorm_M3]

lemma idealWorst_M3 (j : Fin 2) : idealWorst M3 w3 t3 j = M3 0 j * cM3 := by
  rw [idealWorst_eq_row hw3 hworst0 j, wnorm_M3]

lemma score_M3_0 : topsisScore M3 w3 t3 0 = 0 :=
  topsisScore_worst_row hw3 hworst0

lemma score_M3_1 : topsisScore M3 w3 t3 1 = 1 := by
  refine topsisScore_best_row hw3 hbest1 ⟨0, ?_⟩
  rw [wnorm_M3, idealWorst_M3, M3_10, M3_00]
  have hc := cM3_pos
  intro heq
  nlinarith [hc]

lemma dPlus_M3_2 : dPlus M3 w3 t3 2 = Real.sqrt (cM3 ^ 2 / 2) := by
  unfold dPlus
  rw [Fin.sum_univ_two, wnorm_M3, wnorm_M3, idealBest_M3, idealBest_M3,
    M3_20, M3_21, M3_10, M3_11]
  rw [show ((3 : ℝ) / 2 * cM3 - 2 * cM3) ^ 2 + ((3 : ℝ) / 2 * cM3 - 1 * cM3) ^ 2 =
    cM3 ^ 2 / 2 from by ring]

lemma dMinus_M3_2 : dMinus M3 w3 t3 2 = Real.sqrt (cM3 ^ 2 / 2) := by
  unfold dMinus
  rw [Fin.sum_univ_two, wnorm_M3, wnorm_M3, idealWorst_M3, idealWorst_M3,
    M3_20, M3_21, M3_00, M3_01]
  rw [show ((3 : ℝ) / 2 * cM3 - 1 * cM3) ^ 2 + ((3 : ℝ) / 2 * cM3 - 2 * cM3) ^ 2 =
    cM3 ^ 2 / 2 from by ring]

lemma score_M3_2 : topsisScore M3 w3 t3 2 = 1 / 2 := by
  have hd : 0 < Real.sqrt (cM3 ^ 2 / 2) :=
    Real.sqrt_pos.2 (div_pos (pow_pos cM3_pos 2) two_pos)
  unfold topsisScore
  rw [dPlus_M3_2, dMinus_M3_2, if_neg (add_pos hd hd).ne']
  rw [show Real.sqrt (cM3 ^ 2 / 2) + Real.sqrt (cM3 ^ 2 / 2) =
    2 * Real.sqrt (cM3 ^ 2 / 2) from by ring]
  rw [div_eq_iff (mul_ne_zero (by norm_num) hd.ne')]
  ring

/-- C6, counterexample.  On the spec's scenario the TOPSIS ranks are
(3, 1, 2): row 0 is the ideal-worst row (score 0, rank 3), row 1 the
ideal-best row (score 1, rank 1) and row 2 is halfway (score 1/2, rank 2) —
rows 0 and 1 are not tied at rank 1 and row 2 is not ranked 3 as claimed. -/
theorem topsis_scenario_counterexample :
    rankOf (topsisScore M3 w3 t3) 0 = 3 ∧ rankOf (topsisScore M3 w3 t3) 1 = 1 ∧
      rankOf (topsisScore M3 w3 t3) 2 = 2 := by
  refine ⟨?_, ?_, ?_⟩ <;>
  · unfold rankOf
    rw [Fin.sum_univ_three, score_M3_0, score_M3_1, score_M3_2]
    norm_num

/-- C6, amended: on the scenario matrix `[[1,2],[2,1],[1.5,1.5]]` with
directions `[+1,-1]` and weights `[0.5,0.5]`, TOPSIS scores the rows
(0, 1, 1/2) and ranks them (3, 1, 2): row 1 first, row 2 second, row 0
third. -/
theorem topsis_scenario_amended :
    topsisScore M3 w3 t3 0 = 0 ∧ topsisScore M3 w3 t3 1 = 1 ∧
      topsisScore M3 w3 t3 2 = 1 / 2 ∧
      rankOf (topsisScore M3 w3 t3) 0 = 3 ∧ rankOf (topsisScore M3 w3 t3) 1 = 1 ∧
      rankOf (topsisScore M3 w3 t3) 2 = 2 := by
  refine ⟨score_M3_0, score_M3_1, score_M3_2, ?_, ?_, ?_⟩ <;>
  · unfold rankOf
    rw [Fin.sum_univ_three, score_M3_0, score_M3_1, score_M3_2]
    norm_num

end Sus
